import Mathlib

/-!
Verification development for a de Bruijn graph genome assembler
(`debruijn.py`).  Reads, k-mers and graph nodes are modelled as `List Char`;
the networkx `DiGraph` is modelled as an ordered node list together with an
ordered edge list `(source, target, weight)` (networkx keeps insertion order
and forbids parallel edges between the same ordered node pair).  Edge weights
and averages are modelled with exact rationals `ℚ` (Python uses ints and
floats; none of the properties below depend on rounding).  Fallible Python
code (exceptions such as `StatisticsError`, `NameError`) is modelled with
`Option`.  The process-global `random` state is passed explicitly as a `seed`
argument; `random.randint` is modelled from the library contract as the
uniform choice `lo + seed % (hi + 1 - lo)`.
-/

abbrev Node := List Char

/-- Model of `statistics.mean` : raises `StatisticsError` on empty data,
hence `Option`. -/
def meanQ (xs : List ℚ) : Option ℚ :=
  if xs.isEmpty then none else some (xs.sum / (xs.length : ℚ))

/-- Model of `statistics.stdev` squared: the sample variance
`Σ (x - μ)² / (n - 1)`; `statistics.stdev` raises `StatisticsError` on fewer
than two data points, hence `Option`.  The source only ever compares
`stdev > 0`, and `sqrt v > 0 ↔ v > 0`, so branching on the variance is
equivalent to branching on the standard deviation. -/
def sampleVariance (xs : List ℚ) : Option ℚ :=
  if xs.length < 2 then none
  else
    let avg := xs.sum / (xs.length : ℚ)
    some ((xs.map (fun x => (x - avg) ^ 2)).sum / ((xs.length : ℚ) - 1))

/-- Model of Python `max(xs)` for nonempty `xs` (the default only pads the
empty case, which Python turns into a `ValueError`; never reached at the
call sites below). -/
def pyMax {α : Type} [LinearOrder α] (d : α) (xs : List α) : α :=
  xs.foldl max (xs.headD d)

/-- Model of Python `xs.index(x)`: index of the first occurrence of `x`
(absence raises `ValueError` in Python; here it would return `xs.length`,
never reached because the call sites look up `max(xs)`, a member). -/
def pyIndex {α : Type} [DecidableEq α] (x : α) : List α → Nat
  | [] => 0
  | y :: t => if y = x then 0 else pyIndex x t + 1

/-- Model of Python `xs.index(max(xs))`: index of the first occurrence of
the maximum. -/
def firstMaxIdx {α : Type} [LinearOrder α] [DecidableEq α] (d : α) (xs : List α) : Nat :=
  pyIndex (pyMax d xs) xs

/-- Model of `random.randint(lo, hi)` driven by an explicit state `seed`:
the library contract is a uniform draw from `[lo, hi]`, modelled as
`lo + seed % (hi + 1 - lo)`. -/
def randint (lo hi seed : Nat) : Nat :=
  lo + seed % (hi + 1 - lo)

/-- Model of a networkx `DiGraph` with a `weight` attribute on every edge:
nodes in insertion order, edges in insertion order as
`(source, target, weight)`; no parallel edges are ever created. -/
structure Graph where
  nodes : List Node
  edges : List (Node × Node × ℚ)
deriving DecidableEq

def graphEmpty : Graph := ⟨[], []⟩

/-- networkx: adding an edge silently adds its missing endpoints. -/
def addNode (g : Graph) (v : Node) : Graph :=
  if v ∈ g.nodes then g else { g with nodes := g.nodes ++ [v] }

/-- Weight of the edge `u → v`, if present (`G[u][v]['weight']`). -/
def findEdge (g : Graph) (u v : Node) : Option ℚ :=
  (g.edges.find? (fun e => u = e.1 ∧ v = e.2.1)).map (fun e => e.2.2)

/-- `G[u][v]['weight']` with default 0; the Python code would raise
`KeyError` for a missing edge, and every call site below looks up an edge
that is present. -/
def edgeWeightD (g : Graph) (u v : Node) : ℚ :=
  (findEdge g u v).getD 0

/-- Model of `DiGraph.add_edge(u, v, weight=w)`: inserts missing endpoints,
then sets the weight of the (unique) `u → v` edge, keeping its position, or
appends a fresh edge. -/
def addEdge (g : Graph) (u v : Node) (w : ℚ) : Graph :=
  let g1 := addNode (addNode g u) v
  if (findEdge g1 u v).isSome then
    { g1 with
      edges := g1.edges.map (fun e => if e.1 = u ∧ e.2.1 = v then (u, v, w) else e) }
  else { g1 with edges := g1.edges ++ [(u, v, w)] }

/-- Model of `DiGraph.remove_node` (also triggered by `remove_nodes_from`):
drops the node and every incident edge; absent nodes are a no-op. -/
def removeNode (g : Graph) (v : Node) : Graph :=
  { nodes := g.nodes.filter (fun n => ¬ n = v),
    edges := g.edges.filter (fun e => ¬ e.1 = v ∧ ¬ e.2.1 = v) }

/-- Model of `DiGraph.remove_nodes_from`. -/
def removeNodesFrom (g : Graph) (vs : List Node) : Graph :=
  vs.foldl removeNode g

/-- Model of `list(graph.successors(v))`, in edge insertion order. -/
def successors (g : Graph) (v : Node) : List Node :=
  (g.edges.filter (fun e => e.1 = v)).map (fun e => e.2.1)

/-- Model of `list(graph.predecessors(v))`, in edge insertion order. -/
def predecessors (g : Graph) (v : Node) : List Node :=
  (g.edges.filter (fun e => e.2.1 = v)).map (fun e => e.1)

/-- Edges of `graph.subgraph(S)`: every graph edge with both endpoints in
`S` (NOT only consecutive pairs of a path). -/
def subgraphEdges (g : Graph) (s : List Node) : List (Node × Node × ℚ) :=
  g.edges.filter (fun e => e.1 ∈ s ∧ e.2.1 ∈ s)

/-- `cut_kmer(read, kmer_size)`: the `len(read) - kmer_size + 1` sliding
windows of length `kmer_size` (an empty generator when the read is shorter
than `kmer_size`, exactly as Python `range` on a non-positive bound). -/
def cut_kmer (read : List Char) (kmer_size : Nat) : List (List Char) :=
  (List.range (read.length + 1 - kmer_size)).map
    (fun idx => ((read.drop idx).take kmer_size))

/-- Model of `collections.Counter(iterable)` as an association list in
first-occurrence key order (the iteration order of a `Counter`/`dict`). -/
def counterOf (xs : List (List Char)) : List (List Char × Nat) :=
  xs.foldl
    (fun acc x =>
      if acc.any (fun p => p.1 = x) then
        acc.map (fun p => if p.1 = x then (p.1, p.2 + 1) else p)
      else acc ++ [(x, 1)])
    []

/-- The read loop of `build_kmer_dict`: each iteration REBINDS `kmer_count`
to the current read's counter (the accumulation sits outside the loop in the
source); the accumulator records the last bound value, `none` when the loop
body never ran (`kmer_count` then stays unbound). -/
def build_kmer_dict_loop :
    List (List Char) → Nat → Option (List (List Char × Nat)) →
    Option (List (List Char × Nat))
  | [], _, kmer_count => kmer_count
  | read :: rest, kmer_size, _ =>
    build_kmer_dict_loop rest kmer_size (some (counterOf (cut_kmer read kmer_size)))

/-- `build_kmer_dict`: runs the read loop, then executes
`kmer_dict += kmer_count` ONCE after the loop.  With zero reads
`kmer_count` was never assigned and Python raises `NameError`, modelled as
`none`; otherwise the result is the empty counter plus the LAST read's
counter, i.e. the last read's counter itself. -/
def build_kmer_dict (reads : List (List Char)) (kmer_size : Nat) :
    Option (List (List Char × Nat)) :=
  match build_kmer_dict_loop reads kmer_size none with
  | none => none
  | some kmer_count => some kmer_count

/-- `build_graph`: for every `(kmer, occurrence)` item add the edge
`kmer[:-1] → kmer[1:]` with weight `occurrence`. -/
def build_graph (kmer_dict : List (List Char × Nat)) : Graph :=
  kmer_dict.foldl
    (fun digraph p => addEdge digraph p.1.dropLast (p.1.drop 1) (p.2 : ℚ))
    graphEmpty

/-- The per-path node selection of `remove_paths`: strip the first node
unless `delete_entry_node`, then strip the last unless `delete_sink_node`. -/
def pathStrip (delete_entry_node delete_sink_node : Bool) (path : List Node) :
    List Node :=
  let p1 := if !delete_entry_node then path.drop 1 else path
  if !delete_sink_node then p1.dropLast else p1

/-- `remove_paths`: for each path in order, remove its stripped node list
from the graph. -/
def remove_paths (g : Graph) (path_list : List (List Node))
    (delete_entry_node delete_sink_node : Bool) : Graph :=
  path_list.foldl
    (fun gr path => removeNodesFrom gr (pathStrip delete_entry_node delete_sink_node path))
    g

/-- The paths of `path_list` whose index differs from `best`
(`[path for i, path in enumerate(path_list) if i != best_path_index]`). -/
def losersOf (path_list : List (List Node)) (best : Nat) : List (List Node) :=
  (path_list.enum.filter (fun q => ¬ q.1 = best)).map Prod.snd

/-- The winning-index computation of `select_best_path` (its middle block):
max-average-weight when the weight stdev is positive, else max-length when
the length stdev is positive, else `random.randint(0, len(path_list)-1)`.
`none` models the `StatisticsError` raised by `statistics.stdev` on fewer
than two data points. -/
def best_path_index (path_list : List (List Node)) (path_length : List Nat)
    (weight_avg_list : List ℚ) (seed : Nat) : Option Nat :=
  match sampleVariance weight_avg_list with
  | none => none
  | some weight_var =>
    if 0 < weight_var then
      some (firstMaxIdx 0 weight_avg_list)
    else
      match sampleVariance (path_length.map (fun n => (n : ℚ))) with
      | none => none
      | some length_var =>
        if 0 < length_var then some (firstMaxIdx 0 path_length)
        else some (randint 0 (path_list.length - 1) seed)

/-- `select_best_path`: identity on a one-element path list, otherwise pick
the winning index and remove every other path. -/
def select_best_path (g : Graph) (path_list : List (List Node))
    (path_length : List Nat) (weight_avg_list : List ℚ)
    (delete_entry_node delete_sink_node : Bool) (seed : Nat) : Option Graph :=
  if path_list.length = 1 then some g
  else
    match best_path_index path_list path_length weight_avg_list seed with
    | none => none
    | some best =>
      some (remove_paths g (losersOf path_list best) delete_entry_node delete_sink_node)

/-- `path_average_weight`: the `statistics.mean` of the weights of the edges
of `graph.subgraph(path)` — all edges with both endpoints on the path. -/
def path_average_weight (g : Graph) (path : List Node) : Option ℚ :=
  meanQ ((subgraphEdges g path).map (fun e => e.2.2))

/-- One expansion step of reachability: a set of nodes together with all
their direct successors. -/
def reachStep (g : Graph) (vs : List Node) : List Node :=
  (vs ++ vs.flatMap (fun v => successors g v)).dedup

def reachIter (g : Graph) : Nat → List Node → List Node
  | 0, vs => vs
  | n + 1, vs => reachIter g n (reachStep g vs)

/-- Model of `networkx.has_path(G, u, v)`: reflexive reachability, computed
by closing the successor relation `|V|` times. -/
def has_path (g : Graph) (u v : Node) : Bool :=
  v ∈ reachIter g g.nodes.length [u]

/-- DFS kernel of `networkx.all_simple_paths`: from `cur` with the partial
path `visited`, following successors in adjacency (insertion) order,
yielding every simple path that ends at `target`; `fuel` bounds the path
length (a simple path has at most `|V|` nodes). -/
def simple_paths_aux (g : Graph) (target : Node) :
    Nat → Node → List Node → List (List Node)
  | 0, _, _ => []
  | fuel + 1, cur, visited =>
    if cur = target then [visited ++ [cur]]
    else
      (successors g cur).flatMap
        (fun nxt =>
          if nxt ∈ visited ++ [cur] then []
          else simple_paths_aux g target fuel nxt (visited ++ [cur]))

/-- Model of `networkx.all_simple_paths(G, source, target)` (single target):
DFS order; a source equal to the target produces no path (networkx's empty
generator); a source or target missing from the graph raises `NodeNotFound`
in networkx and yields no path here (every call site passes graph nodes). -/
def all_simple_paths (g : Graph) (source target : Node) : List (List Node) :=
  if source = target then []
  else simple_paths_aux g target g.nodes.length source []

/-- The common ancestors of `v` and `w` (each node counts as its own
ancestor, as in `networkx.ancestors(G, x) | {x}`), in node order. -/
def commonAncestors (g : Graph) (v w : Node) : List Node :=
  g.nodes.filter (fun u => has_path g u v ∧ has_path g u w)

/-- The descent loop of networkx's naive LCA: repeatedly move to a successor
that is still a common ancestor, until none is. -/
def lcaWalk (g : Graph) (ca : List Node) : Nat → Node → Node
  | 0, cur => cur
  | fuel + 1, cur =>
    match (successors g cur).find? (fun s => s ∈ ca) with
    | some nxt => lcaWalk g ca fuel nxt
    | none => cur

/-- Model of `networkx.lowest_common_ancestor(G, v, w)` (default `None` when
there is no common ancestor): start from a common ancestor and walk down
while a successor is still a common ancestor.  networkx starts from an
arbitrary set element; here the first in node order — at every use in this
development the result is uniquely determined. -/
def lowest_common_ancestor (g : Graph) (v w : Node) : Option Node :=
  match commonAncestors g v w with
  | [] => none
  | c :: rest => some (lcaWalk g (c :: rest) g.nodes.length c)

/-- Model of `itertools.combinations(xs, 2)` /
`for i in range(n): for j in range(i+1, n)`: ordered pairs `i < j`. -/
def pairsOf {α : Type} : List α → List (α × α)
  | [] => []
  | x :: xs => (xs.map (fun y => (x, y))) ++ pairsOf xs

/-- The bubble-detection scan of `simplify_bubbles`: first node (in node
order) with more than one predecessor such that some predecessor pair (in
combination order) has a lowest common ancestor; returns
`(ancestor, node)`. -/
def find_bubble (g : Graph) : Option (Node × Node) :=
  g.nodes.findSome? (fun noeud =>
    let preds := predecessors g noeud
    if 1 < preds.length then
      (pairsOf preds).findSome? (fun pq =>
        (lowest_common_ancestor g pq.1 pq.2).map (fun a => (a, noeud)))
    else none)

/-- `solve_bubble`: enumerate all simple ancestor→descendant paths, score
them by node count and by the mean of their CONSECUTIVE edge weights
(`zip(path[:-1], path[1:])`), and select-best with both deletion flags
false. -/
def solve_bubble (g : Graph) (ancestor_node descendant_node : Node) (seed : Nat) :
    Option Graph :=
  let paths := all_simple_paths g ancestor_node descendant_node
  let lengths := paths.map List.length
  let weights := paths.map (fun path =>
    let edge_weights := (path.zip path.tail).map (fun uv => edgeWeightD g uv.1 uv.2)
    edge_weights.sum / (edge_weights.length : ℚ))
  select_best_path g paths lengths weights false false seed

/-- `simplify_bubbles`, its recursive self-call made explicit with `fuel`:
detect the first bubble, solve it, recurse on the result; `none` models
nontermination (fuel exhausted) or a propagated exception. -/
def simplify_bubbles : Nat → Graph → Nat → Option Graph
  | 0, _, _ => none
  | fuel + 1, g, seed =>
    match find_bubble g with
    | none => some g
    | some ad =>
      match solve_bubble g ad.1 ad.2 seed with
      | none => none
      | some g' => simplify_bubbles fuel g' seed

/-- Inner pair loop of `solve_entry_tips`: for each predecessor pair, look
for a lowest common ancestor `a` (Python tests the TRUTHINESS of the node,
so an empty-string node also fails the test), enumerate simple paths from
`a` to `node`, and when more than one exists select-best with
`delete_entry_node=True, delete_sink_node=False`, scoring paths by node
count and by the SUM of their subgraph edge weights. -/
def entry_tips_pairs (node : Node) (seed : Nat) :
    List (Node × Node) → Graph → Option Graph
  | [], g => some g
  | pq :: rest, g =>
    match lowest_common_ancestor g pq.1 pq.2 with
    | none => entry_tips_pairs node seed rest g
    | some common_ancestor =>
      if common_ancestor = [] then entry_tips_pairs node seed rest g
      else
        let paths := all_simple_paths g common_ancestor node
        if 1 < paths.length then
          let path_lengths := paths.map List.length
          let path_weights := paths.map (fun path =>
            (((subgraphEdges g path).map (fun e => e.2.2)).sum))
          match select_best_path g paths path_lengths
              (path_weights) true false seed with
          | none => none
          | some g' => entry_tips_pairs node seed rest g'
        else entry_tips_pairs node seed rest g

/-- Node loop of `solve_entry_tips`: for each starting node, recompute its
predecessor list in the CURRENT graph and run the pair loop only when it has
more than one predecessor. -/
def solve_entry_tips_loop (seed : Nat) : List Node → Graph → Option Graph
  | [], g => some g
  | node :: rest, g =>
    let preds := predecessors g node
    if 1 < preds.length then
      match entry_tips_pairs node seed (pairsOf preds) g with
      | none => none
      | some g' => solve_entry_tips_loop seed rest g'
    else solve_entry_tips_loop seed rest g

/-- `solve_entry_tips(graph, starting_nodes)`. -/
def solve_entry_tips (g : Graph) (starting_nodes : List Node) (seed : Nat) :
    Option Graph :=
  solve_entry_tips_loop seed starting_nodes g

/-- `get_starting_nodes`: nodes without predecessors, in node order. -/
def get_starting_nodes (g : Graph) : List Node :=
  g.nodes.filter (fun node => (predecessors g node).isEmpty)

/-- `get_sink_nodes`: nodes without successors, in node order. -/
def get_sink_nodes (g : Graph) : List Node :=
  g.nodes.filter (fun node => (successors g node).isEmpty)

/-- `node[-1]` packaged as a (possibly empty) list; Python raises
`IndexError` on an empty node, which does not occur: nodes are `(k-1)`-mers
with `k ≥ 2` wherever contigs are built. -/
def lastChar (n : Node) : List Char :=
  match n.getLast? with
  | some c => [c]
  | none => []

/-- Contig of a path: the first node in full, then the last character of
every later node. -/
def contigOfPath (path : List Node) : List Char :=
  path.headD [] ++ (path.drop 1).flatMap lastChar

/-- `get_contigs`: for every (start, end) pair with `has_path`, one contig
per simple path, paired with its length. -/
def get_contigs (g : Graph) (starting_nodes ending_nodes : List Node) :
    List (List Char × Nat) :=
  starting_nodes.flatMap (fun start =>
    ending_nodes.flatMap (fun stop =>
      if has_path g start stop then
        (all_simple_paths g start stop).map
          (fun path => (contigOfPath path, (contigOfPath path).length))
      else []))

/-! Specification-side definitions (stated from the spec's words, to be
compared with the code). -/

/-- Total of all counts of a k-mer count mapping. -/
def dictTotal (d : List (List Char × Nat)) : Nat :=
  (d.map (fun p => p.2)).sum

/-- Total number of length-`k` windows over all reads:
`Σ max(0, len(read) - k + 1)` (truncated subtraction realises the `max`). -/
def totalWindows (reads : List (List Char)) (k : Nat) : Nat :=
  (reads.map (fun r => r.length + 1 - k)).sum

/-- The nodes `remove_paths`/`select_best_path` is allowed to delete for the
non-winning paths: all their nodes minus the endpoint exemptions. -/
def losersDeletable (path_list : List (List Node)) (best : Nat)
    (delete_entry_node delete_sink_node : Bool) : List Node :=
  (losersOf path_list best).flatMap (pathStrip delete_entry_node delete_sink_node)

/-- The mean of the weights of exactly the consecutive edges of a path, as
the spec describes `path_average_weight`. -/
def consecMean (g : Graph) (path : List Node) : ℚ :=
  let ws := (path.zip path.tail).map (fun uv => edgeWeightD g uv.1 uv.2)
  ws.sum / (ws.length : ℚ)

/-- A graph that is a single linear chain along the node sequence `ws`:
at least two nodes, no duplicates, node list exactly `ws`, and edge list
exactly the consecutive pairs of `ws` (in order, with whatever weights). -/
def isLinearChain (g : Graph) (ws : List Node) : Prop :=
  2 ≤ ws.length ∧ ws.Nodup ∧ g.nodes = ws ∧
    g.edges.map (fun e => (e.1, e.2.1)) = ws.zip ws.tail

instance (g : Graph) (ws : List Node) : Decidable (isLinearChain g ws) := by
  unfold isLinearChain
  infer_instance

/-! Concrete graphs used as inputs of the concrete theorems below. -/

def nA : Node := ['A']
def nB : Node := ['B']
def nC : Node := ['C']
def nD : Node := ['D']
def nS : Node := ['S']
def nT : Node := ['T']
def nX : Node := ['X']
def nY : Node := ['Y']

/-- A bubble whose best path is the longer one `A → X → D`, so that the
losing path `A → D` has no interior node: resolving it removes nothing. -/
def bubbleFixGraph : Graph :=
  addEdge (addEdge (addEdge graphEmpty nA nD 1) nA nX 10) nX nD 10

/-- Main path `A → B → C → D` with a synthetic 2-node entry tip
`S → T → B` merging into it at `B`. -/
def tipGraph : Graph :=
  addEdge (addEdge (addEdge (addEdge (addEdge graphEmpty nA nB 5) nB nC 5)
    nC nD 5) nS nT 1) nT nB 1

/-- Two competing paths `A → X → D` (avg 10) and `A → X → Y → D` (avg 4)
sharing the interior node `X`. -/
def overlapGraph : Graph :=
  addEdge (addEdge (addEdge (addEdge graphEmpty nA nX 10) nX nD 10) nX nY 1) nY nD 1

/-- What remains of `overlapGraph` after removing `X` and `Y`. -/
def overlapGraphAfter : Graph := ⟨[nA, nD], []⟩

/-- Consecutive path `A → B → C` of weight-1 edges plus a heavy shortcut
edge `A → C` between path nodes. -/
def shortcutGraph : Graph :=
  addEdge (addEdge (addEdge graphEmpty nA nB 1) nB nC 1) nA nC 10

/-- Edge-free graph on `A, B, C, D`. -/
def bareGraph : Graph := ⟨[nA, nB, nC, nD], []⟩

/-- `bareGraph` after removing `B`. -/
def bareGraphAfter : Graph := ⟨[nA, nC, nD], []⟩

/-- Two node-disjoint (except anchors) competing paths `A → B → C` (avg 9)
and `A → D → C` (avg 1). -/
def disjointGraph : Graph :=
  addEdge (addEdge (addEdge (addEdge graphEmpty nA nB 9) nB nC 9) nA nD 1) nD nC 1

/-- A plain path `A → B → C` with no extra edges between its nodes. -/
def lineGraph : Graph :=
  addEdge (addEdge graphEmpty nA nB 3) nB nC 5

/-- What the code guarantees after a positive-weight-stdev selection:
the graph is returned with exactly the deletable nodes of the losing paths
removed, the winning index is the first index attaining the maximum
average weight, and every winning-path node that is not deletable for some
loser survives. -/
def SelectMaxConcl (g : Graph) (path_list : List (List Node))
    (path_length : List Nat) (weight_avg_list : List ℚ)
    (delete_entry_node delete_sink_node : Bool) (seed : Nat) : Prop :=
  ∃ g',
    select_best_path g path_list path_length weight_avg_list
      delete_entry_node delete_sink_node seed = some g' ∧
    g'.nodes = g.nodes.filter
      (fun n => ¬ n ∈ losersDeletable path_list (firstMaxIdx 0 weight_avg_list)
        delete_entry_node delete_sink_node) ∧
    (∀ n ∈ path_list.getD (firstMaxIdx 0 weight_avg_list) [],
      n ∈ g.nodes → n ∈ g'.nodes) ∧
    weight_avg_list.get? (firstMaxIdx 0 weight_avg_list) =
      some (pyMax 0 weight_avg_list) ∧
    (∀ q ∈ weight_avg_list, q ≤ pyMax 0 weight_avg_list) ∧
    (∀ j, j < firstMaxIdx 0 weight_avg_list →
      weight_avg_list.get? j ≠ some (pyMax 0 weight_avg_list))

/-- What the code guarantees for EVERY non-raising selector invocation:
with a single path the graph comes back unchanged; otherwise some winning
index is chosen and the result differs from the input exactly by the
removal of the losing paths' deletable nodes (and their incident edges) —
never a partial deletion. -/
def SelectAtomicConcl (g : Graph) (path_list : List (List Node))
    (path_length : List Nat) (weight_avg_list : List ℚ)
    (delete_entry_node delete_sink_node : Bool) (seed : Nat) (g' : Graph) : Prop :=
  (path_list.length = 1 → g' = g) ∧
  ((path_list.length = 1 ∧ g' = g) ∨
    (∃ best,
      best_path_index path_list path_length weight_avg_list seed = some best ∧
      g'.nodes = g.nodes.filter
        (fun n => ¬ n ∈ losersDeletable path_list best
          delete_entry_node delete_sink_node) ∧
      g'.edges = g.edges.filter
        (fun e => ¬ e.1 ∈ losersDeletable path_list best
            delete_entry_node delete_sink_node ∧
          ¬ e.2.1 ∈ losersDeletable path_list best
            delete_entry_node delete_sink_node)))

/-! Helper lemmas. -/

theorem build_kmer_dict_loop_isSome (reads : List (List Char)) (k : Nat)
    (x : List (List Char × Nat)) :
    (build_kmer_dict_loop reads k (some x)).isSome := by
  induction reads generalizing x with
  | nil => rfl
  | cons r rest ih => exact ih _

theorem build_kmer_dict_eq_loop (reads : List (List Char)) (k : Nat) :
    build_kmer_dict reads k = build_kmer_dict_loop reads k none := by
  unfold build_kmer_dict
  cases build_kmer_dict_loop reads k none <;> rfl

/-! Claim theorems, in claim order. -/

/-- C1: the spec says the total of the k-mer counts equals the total number
of length-k windows over ALL reads.  The code accumulates `kmer_dict +=
kmer_count` OUTSIDE the read loop, so only the last read is counted: on the
reads `["AA", "CC"]` with `k = 2` the code returns `{"CC": 1}` with total
count 1, while the two reads have 2 windows in total. -/
theorem build_kmer_dict_last_read_only :
    build_kmer_dict [['A', 'A'], ['C', 'C']] 2 = some [(['C', 'C'], 1)] ∧
    dictTotal [(['C', 'C'], 1)] = 1 ∧
    totalWindows [['A', 'A'], ['C', 'C']] 2 = 2 := by
  refine ⟨rfl, rfl, rfl⟩

/-- C10: on an empty read sequence `build_kmer_dict` fails (Python:
`NameError`, the loop variable `kmer_count` is used after the loop without
ever being assigned), modelled as `none`; with at least one read it returns
a mapping without error. -/
theorem build_kmer_dict_empty_reads_error :
    (∀ k, build_kmer_dict [] k = none) ∧
    (∀ (reads : List (List Char)) (k : Nat), reads ≠ [] →
      (build_kmer_dict reads k).isSome) := by
  constructor
  · intro k; rfl
  · intro reads k h
    match reads, h with
    | r :: rest, _ =>
      rw [build_kmer_dict_eq_loop]
      exact build_kmer_dict_loop_isSome rest k _

theorem build_kmer_dict_empty_reads_error_witness :
    ([['A']] : List (List Char)) ≠ [] ∧ (build_kmer_dict [['A']] 1).isSome :=
  ⟨by decide, build_kmer_dict_empty_reads_error.2 [['A']] 1 (by decide)⟩

/-- C9: a single read strictly shorter than `k` is not an error: the k-mer
mapping is empty, the graph built from it has no nodes and no edges, and the
contig list extracted from it (with its entry and exit node sets) is
empty. -/
theorem short_read_pipeline_empty (read : List Char) (k : Nat)
    (h : read.length < k) :
    build_kmer_dict [read] k = some [] ∧
    (build_graph []).nodes = [] ∧ (build_graph []).edges = [] ∧
    get_contigs (build_graph []) (get_starting_nodes (build_graph []))
      (get_sink_nodes (build_graph [])) = [] := by
  have hcut : cut_kmer read k = [] := by
    unfold cut_kmer
    have h0 : read.length + 1 - k = 0 := by omega
    rw [h0]
    rfl
  refine ⟨?_, rfl, rfl, rfl⟩
  rw [build_kmer_dict_eq_loop]
  show build_kmer_dict_loop [] k (some (counterOf (cut_kmer read k))) = some []
  rw [hcut]
  rfl

theorem short_read_pipeline_empty_witness :
    (['A', 'B'] : List Char).length < 3 ∧
    (build_kmer_dict [['A', 'B']] 3 = some [] ∧
      (build_graph []).nodes = [] ∧ (build_graph []).edges = [] ∧
      get_contigs (build_graph []) (get_starting_nodes (build_graph []))
        (get_sink_nodes (build_graph [])) = []) :=
  ⟨by decide, short_read_pipeline_empty ['A', 'B'] 3 (by decide)⟩

theorem best_path_index_of_weight_var (pl : List (List Node)) (plen : List Nat)
    (wavg : List ℚ) (seed : Nat) (v : ℚ)
    (hv : sampleVariance wavg = some v) (hpos : 0 < v) :
    best_path_index pl plen wavg seed = some (firstMaxIdx 0 wavg) := by
  unfold best_path_index
  rw [hv]
  exact if_pos hpos

theorem select_best_path_of_weight_var (g : Graph) (pl : List (List Node))
    (plen : List Nat) (wavg : List ℚ) (de ds : Bool) (seed : Nat) (v : ℚ)
    (hv : sampleVariance wavg = some v) (hpos : 0 < v) (h1 : pl.length ≠ 1) :
    select_best_path g pl plen wavg de ds seed =
      some (remove_paths g (losersOf pl (firstMaxIdx 0 wavg)) de ds) := by
  unfold select_best_path
  rw [if_neg h1, best_path_index_of_weight_var pl plen wavg seed v hv hpos]

theorem find_bubble_fix : find_bubble bubbleFixGraph = some (nA, nD) := by
  decide

theorem solve_bubble_fix (seed : Nat) :
    solve_bubble bubbleFixGraph nA nD seed = some bubbleFixGraph := by
  unfold solve_bubble
  dsimp only
  rw [select_best_path_of_weight_var _ _ _ _ _ _ _ ((81 : ℚ) / 2)
    (by with_unfolding_all rfl) (by norm_num) (by decide)]
  with_unfolding_all rfl

/-- C3: the claim (the spec) says `simplify_bubbles` terminates because each
resolution round strictly reduces the node count.  The code violates this:
on `bubbleFixGraph` (`A → D` weight 1, `A → X → D` weights 10) the bubble
`(A, D)` is detected, the winning path is the longer `A → X → D`, and the
losing path `A → D` has no interior node, so the resolution removes nothing
and the recursion re-detects the same bubble forever (Python exhausts the
recursion limit).  Formally: no amount of fuel makes the recursion
finish. -/
theorem simplify_bubbles_nonterminating :
    ∀ (fuel seed : Nat), simplify_bubbles fuel bubbleFixGraph seed = none := by
  intro fuel
  induction fuel with
  | zero => intro seed; rfl
  | succ n ih =>
    intro seed
    show simplify_bubbles (n + 1) bubbleFixGraph seed = none
    rw [simplify_bubbles, find_bubble_fix]
    dsimp only
    rw [solve_bubble_fix seed]
    exact ih seed

/-- C4: the claim (the spec) says `solve_entry_tips`, given the current
zero-in-degree nodes, removes a synthetic 2-node entry tip.  The code loops
over the starting nodes and asks for MORE THAN ONE PREDECESSOR — but a
starting node has zero predecessors, so the body never fires: the call is
always the identity, and on `tipGraph` (main path `A→B→C→D`, tip `S→T→B`)
the tip nodes `S`, `T` and the tip edge `T→B` all survive. -/
theorem solve_entry_tips_noop_on_tip :
    (∀ (g : Graph) (seed : Nat),
      solve_entry_tips g (get_starting_nodes g) seed = some g) ∧
    (∀ seed : Nat,
      solve_entry_tips tipGraph (get_starting_nodes tipGraph) seed = some tipGraph) ∧
    nS ∈ tipGraph.nodes ∧ nT ∈ tipGraph.nodes ∧
    (nT, nB) ∈ tipGraph.edges.map (fun e => (e.1, e.2.1)) := by
  have main : ∀ (g : Graph) (seed : Nat) (ns : List Node),
      (∀ n ∈ ns, (predecessors g n).isEmpty) →
      solve_entry_tips_loop seed ns g = some g := by
    intro g seed ns
    induction ns with
    | nil => intro _; rfl
    | cons a t ih =>
      intro h
      have ha : predecessors g a = [] := by
        have := h a (List.mem_cons_self a t)
        simpa [List.isEmpty_iff] using this
      show solve_entry_tips_loop seed (a :: t) g = some g
      rw [solve_entry_tips_loop, ha]
      simp only [List.length_nil]
      rw [if_neg (by omega)]
      exact ih (fun n hn => h n (List.mem_cons_of_mem a hn))
  refine ⟨?_, ?_, by decide, by decide, by decide⟩
  · intro g seed
    apply main
    intro n hn
    have := List.mem_filter.mp hn
    simpa using this.2
  · intro seed
    rfl

theorem removeNodesFrom_cons (g : Graph) (v : Node) (t : List Node) :
    removeNodesFrom g (v :: t) = removeNodesFrom (removeNode g v) t := rfl

theorem removeNodesFrom_nodes (vs : List Node) (g : Graph) :
    (removeNodesFrom g vs).nodes = g.nodes.filter (fun n => ¬ n ∈ vs) := by
  induction vs generalizing g with
  | nil => simp [removeNodesFrom]
  | cons v t ih =>
    rw [removeNodesFrom_cons, ih]
    show ((g.nodes.filter _).filter _) = _
    rw [List.filter_filter]
    apply List.filter_congr
    intro a _
    by_cases h1 : a = v <;> by_cases h2 : a ∈ t <;> simp [h1, h2]

theorem removeNodesFrom_edges (vs : List Node) (g : Graph) :
    (removeNodesFrom g vs).edges =
      g.edges.filter (fun e => ¬ e.1 ∈ vs ∧ ¬ e.2.1 ∈ vs) := by
  induction vs generalizing g with
  | nil => simp [removeNodesFrom]
  | cons v t ih =>
    rw [removeNodesFrom_cons, ih]
    show ((g.edges.filter _).filter _) = _
    rw [List.filter_filter]
    apply List.filter_congr
    intro e _
    by_cases h1 : e.1 = v <;> by_cases h2 : e.2.1 = v <;>
      by_cases h3 : e.1 ∈ t <;> by_cases h4 : e.2.1 ∈ t <;>
      simp [h1, h2, h3, h4]

theorem removeNodesFrom_append (g : Graph) (a b : List Node) :
    removeNodesFrom g (a ++ b) = removeNodesFrom (removeNodesFrom g a) b := by
  unfold removeNodesFrom
  exact List.foldl_append removeNode g a b

theorem remove_paths_eq_removeNodesFrom (pl : List (List Node)) (g : Graph)
    (de ds : Bool) :
    remove_paths g pl de ds = removeNodesFrom g (pl.flatMap (pathStrip de ds)) := by
  induction pl generalizing g with
  | nil => rfl
  | cons p t ih =>
    show remove_paths (removeNodesFrom g (pathStrip de ds p)) t de ds = _
    rw [ih, List.flatMap_cons, removeNodesFrom_append]

theorem remove_paths_nodes (pl : List (List Node)) (g : Graph) (de ds : Bool) :
    (remove_paths g pl de ds).nodes =
      g.nodes.filter (fun n => ¬ n ∈ pl.flatMap (pathStrip de ds)) := by
  rw [remove_paths_eq_removeNodesFrom, removeNodesFrom_nodes]

theorem remove_paths_edges (pl : List (List Node)) (g : Graph) (de ds : Bool) :
    (remove_paths g pl de ds).edges =
      g.edges.filter (fun e => ¬ e.1 ∈ pl.flatMap (pathStrip de ds) ∧
        ¬ e.2.1 ∈ pl.flatMap (pathStrip de ds)) := by
  rw [remove_paths_eq_removeNodesFrom, removeNodesFrom_edges]

theorem foldl_max_le_self {α : Type} [LinearOrder α] :
    ∀ (t : List α) (a : α), a ≤ t.foldl max a
  | [], a => le_refl a
  | b :: t, a => le_trans (le_max_left a b) (foldl_max_le_self t (max a b))

theorem le_foldl_max {α : Type} [LinearOrder α] :
    ∀ (t : List α) (a x : α), x ∈ t → x ≤ t.foldl max a
  | b :: t, a, x, h => by
    rcases List.mem_cons.mp h with rfl | h'
    · exact le_trans (le_max_right a x) (foldl_max_le_self t (max a x))
    · exact le_foldl_max t (max a b) x h'

theorem foldl_max_mem {α : Type} [LinearOrder α] :
    ∀ (t : List α) (a : α), t.foldl max a = a ∨ t.foldl max a ∈ t
  | [], _ => Or.inl rfl
  | b :: t, a => by
    rcases foldl_max_mem t (max a b) with h | h
    · rcases max_choice a b with h' | h'
      · exact Or.inl (by rw [List.foldl_cons, h, h'])
      · refine Or.inr ?_
        rw [List.foldl_cons, h, h']
        exact List.mem_cons_self b t
    · exact Or.inr (List.mem_cons_of_mem b h)

theorem pyMax_mem {α : Type} [LinearOrder α] (d : α) (xs : List α) (h : xs ≠ []) :
    pyMax d xs ∈ xs := by
  match xs, h with
  | x :: t, _ =>
    unfold pyMax
    rcases foldl_max_mem (x :: t) (List.headD (x :: t) d) with h' | h'
    · rw [h']; exact List.mem_cons_self x t
    · exact h'

theorem le_pyMax {α : Type} [LinearOrder α] (d : α) (xs : List α) (x : α)
    (h : x ∈ xs) : x ≤ pyMax d xs :=
  le_foldl_max xs (xs.headD d) x h

theorem pyIndex_get {α : Type} [DecidableEq α] (x : α) (xs : List α)
    (h : x ∈ xs) : xs.get? (pyIndex x xs) = some x := by
  induction xs with
  | nil => cases h
  | cons y t ih =>
    by_cases hy : y = x
    · subst hy
      simp [pyIndex]
    · rcases List.mem_cons.mp h with rfl | h'
      · exact absurd rfl hy
      · simp only [pyIndex, if_neg hy]
        exact ih h'

theorem pyIndex_lt_length {α : Type} [DecidableEq α] (x : α) (xs : List α)
    (h : x ∈ xs) : pyIndex x xs < xs.length := by
  induction xs with
  | nil => cases h
  | cons y t ih =>
    by_cases hy : y = x
    · simp [pyIndex, hy]
    · rcases List.mem_cons.mp h with rfl | h'
      · exact absurd rfl hy
      · simp only [pyIndex, if_neg hy, List.length_cons]
        exact Nat.succ_lt_succ (ih h')

theorem pyIndex_first {α : Type} [DecidableEq α] (x : α) (xs : List α) :
    ∀ j, j < pyIndex x xs → xs.get? j ≠ some x := by
  induction xs with
  | nil => intro j h; simp [pyIndex] at h
  | cons y t ih =>
    intro j hj
    by_cases hy : y = x
    · simp [pyIndex, hy] at hj
    · simp only [pyIndex, if_neg hy] at hj
      match j with
      | 0 =>
        simp only [List.get?_cons_zero]
        intro hc
        exact hy (Option.some.inj hc)
      | j + 1 =>
        simp only [List.get?_cons_succ]
        exact ih j (Nat.lt_of_succ_lt_succ hj)

/-- C2, corrected: the claim as stated is false, because paths may share
nodes: a deletable node of a losing path can lie on the winning path and is
then removed (see `select_best_path_overlap_counterexample`).  Amended
claim, as proved here: for weight averages with positive sample standard
deviation, the winner is the first index attaining the maximum average
weight; the selector removes exactly the losing paths' deletable nodes
(interiors, plus first/last per flags), and — provided no deletable node of
a losing path lies on the winning path — every node of the winning path
present in the graph stays present. -/
theorem select_best_path_max_weight_spec
    (g : Graph) (pl : List (List Node)) (plen : List Nat) (wavg : List ℚ)
    (de ds : Bool) (seed : Nat) (v : ℚ)
    (h2 : 2 ≤ pl.length)
    (hv : sampleVariance wavg = some v) (hvpos : 0 < v)
    (hdisj : ∀ n ∈ pl.getD (firstMaxIdx 0 wavg) [],
      ¬ n ∈ losersDeletable pl (firstMaxIdx 0 wavg) de ds) :
    SelectMaxConcl g pl plen wavg de ds seed := by
  have h1 : pl.length ≠ 1 := by omega
  have hsel := select_best_path_of_weight_var g pl plen wavg de ds seed v hv hvpos h1
  have hne : wavg ≠ [] := by
    intro he
    rw [he] at hv
    simp [sampleVariance] at hv
  refine ⟨remove_paths g (losersOf pl (firstMaxIdx 0 wavg)) de ds, hsel, ?_, ?_, ?_, ?_, ?_⟩
  · rw [remove_paths_nodes]
    rfl
  · intro n hn hgn
    rw [remove_paths_nodes, List.mem_filter]
    exact ⟨hgn, decide_eq_true (hdisj n hn)⟩
  · exact pyIndex_get _ _ (pyMax_mem 0 wavg hne)
  · intro q hq
    exact le_pyMax 0 wavg q hq
  · exact fun j hj => pyIndex_first _ _ j hj

theorem select_best_path_max_weight_spec_witness :
    sampleVariance [(9 : ℚ), 1] = some 32 ∧
    SelectMaxConcl disjointGraph [[nA, nB, nC], [nA, nD, nC]] [3, 3] [9, 1]
      false false 0 :=
  ⟨by with_unfolding_all rfl,
    select_best_path_max_weight_spec disjointGraph [[nA, nB, nC], [nA, nD, nC]]
      [3, 3] [9, 1] false false 0 32 (by norm_num) (by with_unfolding_all rfl)
      (by norm_num) (by with_unfolding_all decide)⟩

/-- C2, counterexample to the claim as stated: on `overlapGraph` the two
paths `A→X→D` (avg 10, the strict-maximum winner at index 0) and
`A→X→Y→D` (avg 4) share the interior node `X`; the selector removes the
loser's interior `[X, Y]`, deleting node `X` of the WINNING path, although
the weight averages have positive sample standard deviation. -/
theorem select_best_path_overlap_counterexample :
    select_best_path overlapGraph [[nA, nX, nD], [nA, nX, nY, nD]] [3, 4]
      [10, 4] false false 0 = some overlapGraphAfter ∧
    sampleVariance [(10 : ℚ), 4] = some 18 ∧
    firstMaxIdx 0 [(10 : ℚ), 4] = 0 ∧
    nX ∈ [nA, nX, nD] ∧ nX ∈ overlapGraph.nodes ∧
    ¬ nX ∈ overlapGraphAfter.nodes :=
  ⟨by with_unfolding_all rfl, by with_unfolding_all rfl,
    by with_unfolding_all rfl, by decide, by decide, by decide⟩

/-- C6, corrected: the "all nodes of the winning path remain" half of
atomicity fails when the winning path shares a deletable node with a losing
path (see `select_best_path_not_atomic_counterexample`).  Amended claim, as
proved here: every non-raising invocation either returns the graph
unchanged (always so for a one-element path list) or removes exactly the
union of the losing paths' deletable nodes, and their incident edges — no
path is ever left half-deleted. -/
theorem select_best_path_atomicity_spec
    (g : Graph) (pl : List (List Node)) (plen : List Nat) (wavg : List ℚ)
    (de ds : Bool) (seed : Nat) (g' : Graph)
    (h : select_best_path g pl plen wavg de ds seed = some g') :
    SelectAtomicConcl g pl plen wavg de ds seed g' := by
  unfold select_best_path at h
  by_cases hl : pl.length = 1
  · rw [if_pos hl] at h
    have hg : g' = g := (Option.some.inj h).symm
    exact ⟨fun _ => hg, Or.inl ⟨hl, hg⟩⟩
  · rw [if_neg hl] at h
    cases hbi : best_path_index pl plen wavg seed with
    | none => rw [hbi] at h; cases h
    | some best =>
      rw [hbi] at h
      have hg : g' = remove_paths g (losersOf pl best) de ds :=
        (Option.some.inj h).symm
      refine ⟨fun hc => absurd hc hl, Or.inr ⟨best, hbi, ?_, ?_⟩⟩
      · rw [hg, remove_paths_nodes]
        rfl
      · rw [hg, remove_paths_edges]
        rfl

theorem select_best_path_atomicity_spec_witness :
    select_best_path bareGraph [[nA, nB, nC], [nD, nB, nC]] [3, 3] [5, 1]
      false false 0 = some bareGraphAfter ∧
    SelectAtomicConcl bareGraph [[nA, nB, nC], [nD, nB, nC]] [3, 3] [5, 1]
      false false 0 bareGraphAfter :=
  ⟨by with_unfolding_all rfl,
    select_best_path_atomicity_spec bareGraph [[nA, nB, nC], [nD, nB, nC]]
      [3, 3] [5, 1] false false 0 bareGraphAfter (by with_unfolding_all rfl)⟩

/-- C6, counterexample to the claim as stated: on the edge-free `bareGraph`
with paths `[A,B,C]` (winner, index 0) and `[D,B,C]`, the invocation is
neither a no-op nor a full resolution — the interior node `B` of the
WINNING path is removed because it is also the loser's interior. -/
theorem select_best_path_not_atomic_counterexample :
    select_best_path bareGraph [[nA, nB, nC], [nD, nB, nC]] [3, 3] [5, 1]
      false false 0 = some bareGraphAfter ∧
    best_path_index [[nA, nB, nC], [nD, nB, nC]] [3, 3] [5, 1] 0 = some 0 ∧
    nB ∈ [nA, nB, nC] ∧ nB ∈ bareGraph.nodes ∧
    ¬ nB ∈ bareGraphAfter.nodes ∧ ¬ bareGraphAfter = bareGraph :=
  ⟨by with_unfolding_all rfl, by with_unfolding_all rfl, by decide, by decide,
    by decide, by decide⟩

/-- C7: when both the weight averages and the path lengths have zero sample
standard deviation, the winner is `randint(0, n-1)` from the explicit
random state: it is a function of the state alone (two runs from the same
state — indeed from any two states with the same residue — pick the same
index and produce the same graph), and it ranges uniformly over ALL
candidate indices: state `i` elects candidate `i` for every `i < n`, so each
candidate is chosen by exactly one state residue. -/
theorem select_best_path_seed_deterministic_uniform
    (g : Graph) (pl : List (List Node)) (plen : List Nat) (wavg : List ℚ)
    (de ds : Bool)
    (h2 : 2 ≤ pl.length)
    (hw : sampleVariance wavg = some 0)
    (hl : sampleVariance (plen.map (fun n => (n : ℚ))) = some 0) :
    (∀ seed, best_path_index pl plen wavg seed = some (seed % pl.length)) ∧
    (∀ s1 s2, s1 % pl.length = s2 % pl.length →
      select_best_path g pl plen wavg de ds s1 =
        select_best_path g pl plen wavg de ds s2) ∧
    (∀ i, i < pl.length → best_path_index pl plen wavg i = some i) := by
  have hidx : ∀ seed,
      best_path_index pl plen wavg seed = some (seed % pl.length) := by
    intro seed
    unfold best_path_index
    rw [hw]
    dsimp only
    rw [if_neg (lt_irrefl (0 : ℚ)), hl]
    dsimp only
    rw [if_neg (lt_irrefl (0 : ℚ))]
    unfold randint
    have h3 : pl.length - 1 + 1 - 0 = pl.length := by omega
    rw [h3, Nat.zero_add]
  refine ⟨hidx, ?_, ?_⟩
  · intro s1 s2 hs
    unfold select_best_path
    rw [hidx s1, hidx s2, hs]
  · intro i hi
    rw [hidx i, Nat.mod_eq_of_lt hi]

theorem select_best_path_seed_deterministic_uniform_witness :
    sampleVariance [(0 : ℚ), 0] = some 0 ∧
    best_path_index [[nA], [nB]] [1, 1] [0, 0] 5 = some (5 % 2) :=
  ⟨by with_unfolding_all rfl,
    (select_best_path_seed_deterministic_uniform graphEmpty [[nA], [nB]]
      [1, 1] [0, 0] false false (by decide) (by with_unfolding_all rfl)
      (by with_unfolding_all rfl)).1 5⟩

theorem zip_tail_map_fst {α : Type} :
    ∀ (l : List α), (l.zip l.tail).map Prod.fst = l.dropLast
  | [] => rfl
  | [_] => rfl
  | a :: b :: t => by
    show a :: ((b :: t).zip (b :: t).tail).map Prod.fst = _
    rw [zip_tail_map_fst (b :: t)]
    rfl

theorem zip_tail_map_snd {α : Type} :
    ∀ (l : List α), (l.zip l.tail).map Prod.snd = l.tail
  | [] => rfl
  | [_] => rfl
  | a :: b :: t => by
    show b :: ((b :: t).zip (b :: t).tail).map Prod.snd = b :: t
    rw [zip_tail_map_snd (b :: t)]
    rfl

theorem findEdge_of_mem (g : Graph)
    (hE : (g.edges.map (fun e => (e.1, e.2.1))).Nodup)
    (e : Node × Node × ℚ) (he : e ∈ g.edges) :
    findEdge g e.1 e.2.1 = some e.2.2 := by
  unfold findEdge
  cases hfind : g.edges.find? (fun x => e.1 = x.1 ∧ e.2.1 = x.2.1) with
  | none =>
    exfalso
    have := List.find?_eq_none.mp hfind e he
    simp at this
  | some x =>
    have hx_mem := List.mem_of_find?_eq_some hfind
    have hx_pred : e.1 = x.1 ∧ e.2.1 = x.2.1 := by
      simpa using List.find?_some hfind
    have hpair : (fun e : Node × Node × ℚ => (e.1, e.2.1)) x
        = (fun e : Node × Node × ℚ => (e.1, e.2.1)) e := by
      show (x.1, x.2.1) = (e.1, e.2.1)
      rw [hx_pred.1, hx_pred.2]
    have hxe : x = e := List.inj_on_of_nodup_map hE hx_mem he hpair
    rw [hxe]
    rfl

/-- C5, corrected: `path_average_weight` averages over ALL edges of
`graph.subgraph(path)`, so a non-consecutive edge between two path nodes
DOES change the result (see `path_average_weight_extra_edge_counterexample`),
contrary to the claim's "regardless of any other edges".  Amended claim, as
proved here: for a simple path of ≥ 2 nodes whose consecutive pairs are all
edges of the current graph, and such that the graph has no OTHER edge
between path nodes, the function returns exactly the arithmetic mean of the
m consecutive edge weights. -/
theorem path_average_weight_consecutive_spec
    (g : Graph) (pa : List Node)
    (h2 : 2 ≤ pa.length) (hnd : pa.Nodup)
    (hE : (g.edges.map (fun e => (e.1, e.2.1))).Nodup)
    (hcons : ∀ uv ∈ pa.zip pa.tail, (findEdge g uv.1 uv.2).isSome)
    (honly : ∀ e ∈ g.edges, e.1 ∈ pa → e.2.1 ∈ pa →
      (e.1, e.2.1) ∈ pa.zip pa.tail) :
    path_average_weight g pa = some (consecMean g pa) := by
  have hEsub : (subgraphEdges g pa).Sublist g.edges := List.filter_sublist _
  have hEpairs_nodup :
      ((subgraphEdges g pa).map (fun e => (e.1, e.2.1))).Nodup :=
    hE.sublist (hEsub.map _)
  have hzs_nodup : (pa.zip pa.tail).Nodup := by
    apply List.Nodup.of_map Prod.fst
    rw [zip_tail_map_fst]
    exact hnd.sublist (List.dropLast_sublist pa)
  have hmem : ∀ pr : Node × Node,
      pr ∈ (subgraphEdges g pa).map (fun e => (e.1, e.2.1)) ↔
        pr ∈ pa.zip pa.tail := by
    intro pr
    obtain ⟨p1, p2⟩ := pr
    constructor
    · intro h
      rcases List.mem_map.mp h with ⟨e, heE, hpe⟩
      rcases List.mem_filter.mp heE with ⟨heg, hcond⟩
      have hcond' := of_decide_eq_true hcond
      have := honly e heg hcond'.1 hcond'.2
      rw [hpe] at this
      exact this
    · intro h
      have hsome := hcons (p1, p2) h
      unfold findEdge at hsome
      cases hfind : g.edges.find? (fun x => p1 = x.1 ∧ p2 = x.2.1) with
      | none => rw [hfind] at hsome; simp at hsome
      | some x =>
        have hx_mem := List.mem_of_find?_eq_some hfind
        have hx_pred : p1 = x.1 ∧ p2 = x.2.1 := by
          simpa using List.find?_some hfind
        have hp1 : p1 ∈ pa := (List.of_mem_zip h).1
        have hp2 : p2 ∈ pa := (List.tail_sublist pa).subset (List.of_mem_zip h).2
        apply List.mem_map.mpr
        refine ⟨x, List.mem_filter.mpr ⟨hx_mem, ?_⟩, ?_⟩
        · apply decide_eq_true
          rw [← hx_pred.1, ← hx_pred.2]
          exact ⟨hp1, hp2⟩
        · rw [← hx_pred.1, ← hx_pred.2]
  have hperm : ((subgraphEdges g pa).map (fun e => (e.1, e.2.1))).Perm
      (pa.zip pa.tail) :=
    (List.perm_ext_iff_of_nodup hEpairs_nodup hzs_nodup).mpr hmem
  have hweights : (subgraphEdges g pa).map (fun e => e.2.2) =
      ((subgraphEdges g pa).map (fun e => (e.1, e.2.1))).map
        (fun pr => edgeWeightD g pr.1 pr.2) := by
    rw [List.map_map]
    apply List.map_congr_left
    intro e heE
    have heg : e ∈ g.edges := hEsub.subset heE
    show e.2.2 = edgeWeightD g e.1 e.2.1
    rw [edgeWeightD, findEdge_of_mem g hE e heg]
    rfl
  have hperm2 : ((subgraphEdges g pa).map (fun e => e.2.2)).Perm
      ((pa.zip pa.tail).map (fun pr => edgeWeightD g pr.1 pr.2)) := by
    rw [hweights]
    exact hperm.map _
  have hzs_ne : pa.zip pa.tail ≠ [] := by
    match pa, h2 with
    | a :: b :: t, _ => simp
  have hlen_pos :
      0 < ((pa.zip pa.tail).map (fun pr => edgeWeightD g pr.1 pr.2)).length := by
    rw [List.length_map]
    exact List.length_pos.mpr hzs_ne
  have hne : ((subgraphEdges g pa).map (fun e => e.2.2)).isEmpty = false := by
    rw [List.isEmpty_eq_false]
    intro hcontra
    have h0 := hperm2.length_eq
    rw [hcontra] at h0
    simp only [List.length_nil] at h0
    omega
  unfold path_average_weight meanQ consecMean
  dsimp only
  rw [hne]
  simp only [Bool.false_eq_true, if_false]
  rw [hperm2.sum_eq, hperm2.length_eq]

/-- C5, counterexample to the claim as stated: on `shortcutGraph` the path
`[A, B, C]` has both consecutive edges present with weight 1 (consecutive
mean 1), but the extra edge `A → C` of weight 10 between path nodes is
averaged in: the function returns (1 + 1 + 10)/3 = 4, not 1. -/
theorem path_average_weight_extra_edge_counterexample :
    path_average_weight shortcutGraph [nA, nB, nC] = some 4 ∧
    consecMean shortcutGraph [nA, nB, nC] = 1 ∧
    findEdge shortcutGraph nA nB = some 1 ∧
    findEdge shortcutGraph nB nC = some 1 ∧
    ¬ (4 : ℚ) = 1 :=
  ⟨by with_unfolding_all rfl, by with_unfolding_all rfl,
    by with_unfolding_all rfl, by with_unfolding_all rfl, by norm_num⟩

theorem path_average_weight_consecutive_spec_witness :
    2 ≤ ([nA, nB, nC] : List Node).length ∧
    path_average_weight lineGraph [nA, nB, nC] =
      some (consecMean lineGraph [nA, nB, nC]) :=
  ⟨by decide,
    path_average_weight_consecutive_spec lineGraph [nA, nB, nC] (by decide)
      (by decide) (by with_unfolding_all decide) (by with_unfolding_all decide)
      (by with_unfolding_all decide)⟩

theorem chain_edges_fst (g : Graph) (ws : List Node) (h : isLinearChain g ws) :
    g.edges.map (fun e => e.1) = ws.dropLast := by
  have hmap := congrArg (List.map Prod.fst) h.2.2.2
  rw [List.map_map, zip_tail_map_fst] at hmap
  exact hmap

theorem chain_edges_snd (g : Graph) (ws : List Node) (h : isLinearChain g ws) :
    g.edges.map (fun e => e.2.1) = ws.tail := by
  have hmap := congrArg (List.map Prod.snd) h.2.2.2
  rw [List.map_map, zip_tail_map_snd] at hmap
  exact hmap

theorem chain_starting (g : Graph) (ws : List Node) (h : isLinearChain g ws)
    (w0 : Node) (t : List Node) (hws : ws = w0 :: t) :
    get_starting_nodes g = [w0] := by
  have hsnd := chain_edges_snd g ws h
  have hpred_iff : ∀ n : Node, predecessors g n = [] ↔ ¬ n ∈ ws.tail := by
    intro n
    rw [← hsnd]
    unfold predecessors
    simp only [List.map_eq_nil_iff, List.filter_eq_nil_iff, List.mem_map,
      decide_eq_true_eq]
    constructor
    · rintro hno ⟨e, he, hne⟩
      exact hno e he hne
    · intro hnex e he heq
      exact hnex ⟨e, he, heq⟩
  have hstart : get_starting_nodes g = ws.filter (fun n => ¬ n ∈ ws.tail) := by
    unfold get_starting_nodes
    rw [h.2.2.1]
    apply List.filter_congr
    intro n _
    by_cases hc : n ∈ ws.tail
    · have hne : ¬ predecessors g n = [] := fun he => (hpred_iff n).mp he hc
      simp [List.isEmpty_iff, hne, hc]
    · have heq : predecessors g n = [] := (hpred_iff n).mpr hc
      simp [List.isEmpty_iff, heq, hc]
  rw [hstart, hws]
  have hnd : (w0 :: t).Nodup := by rw [← hws]; exact h.2.1
  have hw0 : ¬ w0 ∈ t := (List.nodup_cons.mp hnd).1
  simp only [List.tail_cons]
  have hsplit : (w0 :: t).filter (fun n => ¬ n ∈ t) =
      w0 :: t.filter (fun n => ¬ n ∈ t) :=
    List.filter_cons_of_pos (by simpa using hw0)
  rw [hsplit, List.filter_eq_nil_iff.mpr (by intro a ha; simp [ha])]

theorem chain_sinks (g : Graph) (ws : List Node) (h : isLinearChain g ws)
    (init : List Node) (la : Node) (hla : ws = init ++ [la]) :
    get_sink_nodes g = [la] := by
  have hfst := chain_edges_fst g ws h
  have hsucc_iff : ∀ n : Node, successors g n = [] ↔ ¬ n ∈ ws.dropLast := by
    intro n
    rw [← hfst]
    unfold successors
    simp only [List.map_eq_nil_iff, List.filter_eq_nil_iff, List.mem_map,
      decide_eq_true_eq]
    constructor
    · rintro hno ⟨e, he, hne⟩
      exact hno e he hne
    · intro hnex e he heq
      exact hnex ⟨e, he, heq⟩
  have hsinks : get_sink_nodes g = ws.filter (fun n => ¬ n ∈ ws.dropLast) := by
    unfold get_sink_nodes
    rw [h.2.2.1]
    apply List.filter_congr
    intro n _
    by_cases hc : n ∈ ws.dropLast
    · have hne : ¬ successors g n = [] := fun he => (hsucc_iff n).mp he hc
      simp [List.isEmpty_iff, hne, hc]
    · have heq : successors g n = [] := (hsucc_iff n).mpr hc
      simp [List.isEmpty_iff, heq, hc]
  rw [hsinks, hla, List.dropLast_concat, List.filter_append]
  have hnd : (init ++ [la]).Nodup := by rw [← hla]; exact h.2.1
  have hdisj := (List.nodup_append.mp hnd).2.2
  have hla_not : ¬ la ∈ init := fun hmem => hdisj hmem (by simp)
  rw [List.filter_eq_nil_iff.mpr (by intro a ha; simp [ha])]
  simp [hla_not]

theorem zip_tail_mem {α : Type} :
    ∀ (acc : List α) (x y : α) (rest : List α),
      (x, y) ∈ (acc ++ x :: y :: rest).zip (acc ++ x :: y :: rest).tail
  | [], x, y, rest => by
    show (x, y) ∈ (x :: y :: rest).zip (y :: rest)
    rw [List.zip_cons_cons]
    exact List.mem_cons_self _ _
  | a :: acc', x, y, rest => by
    have hl : acc' ++ x :: y :: rest ≠ [] := by simp
    obtain ⟨c, t, hct⟩ := List.exists_cons_of_ne_nil hl
    show (x, y) ∈ (a :: (acc' ++ x :: y :: rest)).zip (acc' ++ x :: y :: rest)
    rw [hct, List.zip_cons_cons]
    apply List.mem_cons_of_mem
    have hrec := zip_tail_mem acc' x y rest
    rw [hct] at hrec
    exact hrec

theorem filter_fst_unique :
    ∀ (es : List (Node × Node × ℚ)), (es.map (fun e => e.1)).Nodup →
      ∀ x y, (x, y) ∈ es.map (fun e => (e.1, e.2.1)) →
        (es.filter (fun e => e.1 = x)).map (fun e => e.2.1) = [y]
  | [], _, x, y, h => by simp at h
  | e :: es', hnd, x, y, h => by
    rw [List.map_cons, List.nodup_cons] at hnd
    rw [List.map_cons] at h
    by_cases hex : e.1 = x
    · have hsplit : (e :: es').filter (fun e => e.1 = x) =
          e :: es'.filter (fun e => e.1 = x) :=
        List.filter_cons_of_pos (by simpa using hex)
      rw [hsplit]
      have hes' : es'.filter (fun e => e.1 = x) = [] := by
        rw [List.filter_eq_nil_iff]
        intro e' he'
        simp only [decide_eq_true_eq]
        intro hc
        apply hnd.1
        rw [hex, ← hc]
        exact List.mem_map_of_mem (fun e => e.1) he'
      rw [hes']
      have hy : e.2.1 = y := by
        rcases List.mem_cons.mp h with heq | hmem
        · exact (congrArg Prod.snd heq).symm
        · exfalso
          rcases List.mem_map.mp hmem with ⟨e', he', hpe⟩
          apply hnd.1
          rw [hex]
          have : e'.1 = x := congrArg Prod.fst hpe
          rw [← this]
          exact List.mem_map_of_mem (fun e => e.1) he'
      simp [hy]
    · have hsplit : (e :: es').filter (fun e => e.1 = x) =
          es'.filter (fun e => e.1 = x) :=
        List.filter_cons_of_neg (by simpa using hex)
      rw [hsplit]
      apply filter_fst_unique es' hnd.2 x y
      rcases List.mem_cons.mp h with heq | hmem
      · exact absurd (congrArg Prod.fst heq).symm hex
      · exact hmem

theorem chain_successors (g : Graph) (ws : List Node) (h : isLinearChain g ws)
    (acc : List Node) (x y : Node) (rest : List Node)
    (hd : ws = acc ++ x :: y :: rest) :
    successors g x = [y] := by
  have hfst : (g.edges.map (fun e => e.1)).Nodup := by
    rw [chain_edges_fst g ws h]
    exact h.2.1.sublist (List.dropLast_sublist ws)
  have hmem : (x, y) ∈ g.edges.map (fun e => (e.1, e.2.1)) := by
    rw [h.2.2.2, hd]
    exact zip_tail_mem acc x y rest
  exact filter_fst_unique g.edges hfst x y hmem

theorem chain_last_eq (ws : List Node) (acc : List Node) (x : Node)
    (init : List Node) (la : Node)
    (hd : ws = acc ++ [x]) (hla : ws = init ++ [la]) : x = la := by
  have heq : acc ++ [x] = init ++ [la] := by rw [← hd, hla]
  have := (List.append_inj' heq rfl).2
  exact List.cons.injEq x [] la [] ▸ this |>.1

theorem chain_mid_ne_last (ws : List Node) (h : isLinearChain g ws)
    (acc : List Node) (x y : Node) (rest : List Node)
    (init : List Node) (la : Node)
    (hd : ws = acc ++ x :: y :: rest) (hla : ws = init ++ [la]) : ¬ x = la := by
  intro hxla
  have hxd : x ∈ ws.dropLast := by
    have hzm : (x, y) ∈ ws.zip ws.tail := by
      rw [hd]
      exact zip_tail_mem acc x y rest
    have : x ∈ (ws.zip ws.tail).map Prod.fst := List.mem_map_of_mem Prod.fst hzm
    rw [zip_tail_map_fst] at this
    exact this
  have hdl : ws.dropLast = init := by rw [hla]; exact List.dropLast_concat
  rw [hdl, hxla] at hxd
  have hnd : (init ++ [la]).Nodup := by rw [← hla]; exact h.2.1
  exact (List.nodup_append.mp hnd).2.2 hxd (by simp)

theorem chain_dfs (g : Graph) (ws : List Node) (h : isLinearChain g ws)
    (init : List Node) (la : Node) (hla : ws = init ++ [la]) :
    ∀ (l acc : List Node) (x : Node) (fuel : Nat),
      ws = acc ++ x :: l → l.length < fuel →
      simple_paths_aux g la fuel x acc = [ws] := by
  intro l
  induction l with
  | nil =>
    intro acc x fuel hd hf
    obtain ⟨f, rfl⟩ : ∃ f, fuel = f + 1 := ⟨fuel - 1, by omega⟩
    have hx : x = la := chain_last_eq ws acc x init la hd hla
    show simple_paths_aux g la (f + 1) x acc = [ws]
    rw [simple_paths_aux, if_pos hx, ← hd]
  | cons y l' ih =>
    intro acc x fuel hd hf
    obtain ⟨f, rfl⟩ : ∃ f, fuel = f + 1 := ⟨fuel - 1, by omega⟩
    have hxla : ¬ x = la := chain_mid_ne_last ws h acc x y l' init la hd hla
    have hsucc : successors g x = [y] := chain_successors g ws h acc x y l' hd
    have hassoc : (acc ++ [x]) ++ y :: l' = ws := by
      rw [hd, List.append_assoc]
      rfl
    have hynotin : ¬ y ∈ acc ++ [x] := by
      have hnd2 : ((acc ++ [x]) ++ y :: l').Nodup := by rw [hassoc]; exact h.2.1
      intro hy
      exact (List.nodup_append.mp hnd2).2.2 hy (List.mem_cons_self y l')
    show simple_paths_aux g la (f + 1) x acc = [ws]
    rw [simple_paths_aux, if_neg hxla, hsucc, List.flatMap_cons, List.flatMap_nil,
      List.append_nil, if_neg hynotin]
    apply ih (acc ++ [x]) y f
    · rw [hd, List.append_assoc]
      rfl
    · have : l'.length + 1 < f + 1 := by simpa using hf
      omega

theorem mem_reachStep_self (g : Graph) (vs : List Node) (u : Node)
    (h : u ∈ vs) : u ∈ reachStep g vs := by
  unfold reachStep
  rw [List.mem_dedup]
  exact List.mem_append_left _ h

theorem mem_reachStep_succ (g : Graph) (vs : List Node) (u w : Node)
    (hu : u ∈ vs) (hw : w ∈ successors g u) : w ∈ reachStep g vs := by
  unfold reachStep
  rw [List.mem_dedup]
  exact List.mem_append_right _ (List.mem_flatMap.mpr ⟨u, hu, hw⟩)

theorem reachIter_preserve (g : Graph) :
    ∀ (n : Nat) (vs : List Node) (u : Node), u ∈ vs → u ∈ reachIter g n vs
  | 0, _, _, h => h
  | n + 1, vs, u, h =>
    reachIter_preserve g n (reachStep g vs) u (mem_reachStep_self g vs u h)

theorem chain_reach (g : Graph) (ws : List Node) (h : isLinearChain g ws)
    (init : List Node) (la : Node) (hla : ws = init ++ [la]) :
    ∀ (l acc : List Node) (x : Node) (vs : List Node) (n : Nat),
      ws = acc ++ x :: l → x ∈ vs → l.length ≤ n →
      la ∈ reachIter g n vs := by
  intro l
  induction l with
  | nil =>
    intro acc x vs n hd hx _
    have hxla : x = la := chain_last_eq ws acc x init la hd hla
    rw [hxla] at hx
    exact reachIter_preserve g n vs la hx
  | cons y l' ih =>
    intro acc x vs n hd hx hn
    obtain ⟨n', rfl⟩ : ∃ n', n = n' + 1 := ⟨n - 1, by simp at hn; omega⟩
    show la ∈ reachIter g n' (reachStep g vs)
    apply ih (acc ++ [x]) y (reachStep g vs) n'
    · rw [hd, List.append_assoc]
      rfl
    · apply mem_reachStep_succ g vs x y hx
      rw [chain_successors g ws h acc x y l' hd]
      exact List.mem_cons_self _ _
    · simp at hn
      omega

theorem chain_has_path (g : Graph) (ws : List Node) (h : isLinearChain g ws)
    (w0 : Node) (t : List Node) (init : List Node) (la : Node)
    (hws : ws = w0 :: t) (hla : ws = init ++ [la]) :
    has_path g w0 la = true := by
  unfold has_path
  apply decide_eq_true
  apply chain_reach g ws h init la hla t [] w0 [w0] g.nodes.length
  · simpa using hws
  · exact List.mem_cons_self _ _
  · rw [h.2.2.1, hws]
    simp

theorem chain_contigs (g : Graph) (ws : List Node) (h : isLinearChain g ws) :
    get_contigs g (get_starting_nodes g) (get_sink_nodes g) =
      [(contigOfPath ws, (contigOfPath ws).length)] := by
  obtain ⟨w0, t, hws⟩ : ∃ w0 t, ws = w0 :: t := by
    cases ws with
    | nil => exact absurd h.1 (by simp)
    | cons a l => exact ⟨a, l, rfl⟩
  have hwsne : ws ≠ [] := by rw [hws]; simp
  obtain ⟨init, la, hla⟩ : ∃ init la, ws = init ++ [la] :=
    ⟨ws.dropLast, ws.getLast hwsne, (List.dropLast_append_getLast hwsne).symm⟩
  have hinit_ne : init ≠ [] := by
    intro he
    have hlen := h.1
    rw [hla, he] at hlen
    simp at hlen
  obtain ⟨i0, it, hinit⟩ := List.exists_cons_of_ne_nil hinit_ne
  have hw0init : w0 = i0 := by
    have hcc : w0 :: t = i0 :: (it ++ [la]) := by
      rw [← hws, hla, hinit]
      rfl
    injection hcc
  have hw0la : ¬ w0 = la := by
    intro hc
    have hnd : (init ++ [la]).Nodup := by rw [← hla]; exact h.2.1
    have hla_in : la ∈ init := by
      rw [← hc, hw0init, hinit]
      exact List.mem_cons_self _ _
    exact (List.nodup_append.mp hnd).2.2 hla_in (by simp)
  rw [chain_starting g ws h w0 t hws, chain_sinks g ws h init la hla]
  unfold get_contigs
  simp only [List.flatMap_cons, List.flatMap_nil, List.append_nil]
  rw [chain_has_path g ws h w0 t init la hws hla]
  simp only [if_true]
  unfold all_simple_paths
  rw [if_neg hw0la]
  have hfuel : t.length < g.nodes.length := by
    rw [h.2.2.1, hws]
    simp
  rw [chain_dfs g ws h init la hla t [] w0 g.nodes.length (by simpa using hws) hfuel]
  rfl

theorem windows_cons (s : List Char) (w : Nat) (h1 : 1 ≤ w) (hw : w ≤ s.length) :
    cut_kmer s w = s.take w :: cut_kmer (s.drop 1) w := by
  unfold cut_kmer
  have hlen : s.length + 1 - w = (s.length - w) + 1 := by omega
  have hlen' : (s.drop 1).length + 1 - w = s.length - w := by
    rw [List.length_drop]
    omega
  rw [hlen, List.range_succ_eq_map, List.map_cons, List.map_map, hlen']
  congr 1
  apply List.map_congr_left
  intro i _
  show (s.drop (i + 1)).take w = ((s.drop 1).drop i).take w
  rw [List.drop_drop]
  congr 2
  omega

theorem getLast?_take (w : Nat) :
    ∀ (t : List Char), 1 ≤ w → w ≤ t.length →
      (t.take w).getLast? = t.get? (w - 1) := by
  induction w with
  | zero => intro t h1 _; omega
  | succ w' ihw =>
    intro t _ hw
    cases t with
    | nil => simp at hw
    | cons c t' =>
      by_cases hz : w' = 0
      · subst hz
        simp
      · have h1' : 1 ≤ w' := by omega
        have hw' : w' ≤ t'.length := by
          simp at hw
          omega
        obtain ⟨d, t'', rfl⟩ : ∃ d t'', t' = d :: t'' := by
          cases t' with
          | nil => simp at hw'; omega
          | cons d t'' => exact ⟨d, t'', rfl⟩
        show ((c :: d :: t'').take (w' + 1)).getLast? = (c :: d :: t'').get? w'
        rw [List.take_succ_cons]
        have htk : (d :: t'').take w' ≠ [] := by
          intro hcontra
          have := congrArg List.length hcontra
          simp at this
          omega
        obtain ⟨e, tk, hek⟩ := List.exists_cons_of_ne_nil htk
        rw [hek]
        show (c :: e :: tk).getLast? = (c :: d :: t'').get? w'
        rw [List.getLast?_cons_cons, ← hek]
        rw [ihw (d :: t'') h1' hw']
        obtain ⟨w'', rfl⟩ : ∃ w'', w' = w'' + 1 := ⟨w' - 1, by omega⟩
        simp

theorem windows_lastChars (w : Nat) (h1 : 1 ≤ w) :
    ∀ (t : List Char), (cut_kmer t w).flatMap lastChar = t.drop (w - 1) := by
  intro t
  induction t with
  | nil =>
    have : cut_kmer [] w = [] := by
      unfold cut_kmer
      have : ([] : List Char).length + 1 - w = 0 := by simp; omega
      rw [this]
      rfl
    rw [this]
    simp
  | cons c t' ih =>
    by_cases hw : w ≤ (c :: t').length
    · rw [windows_cons (c :: t') w h1 hw]
      rw [List.flatMap_cons]
      have hdrop1 : (c :: t').drop 1 = t' := rfl
      rw [hdrop1, ih]
      have hlast : (((c :: t').take w)).getLast? = (c :: t').get? (w - 1) :=
        getLast?_take w (c :: t') h1 hw
      have hwlt : w - 1 < (c :: t').length := by
        simp only [List.length_cons] at hw ⊢
        omega
      have hget : (c :: t').get? (w - 1) = some ((c :: t').get ⟨w - 1, hwlt⟩) :=
        List.get?_eq_get hwlt
      unfold lastChar
      rw [hlast, hget]
      have hdropeq : (c :: t').drop (w - 1) =
          (c :: t').get ⟨w - 1, hwlt⟩ :: (c :: t').drop w := by
        have hstep := List.drop_eq_get_cons (l := c :: t') (n := w - 1) hwlt
        rw [hstep]
        congr 2
        omega
      rw [hdropeq]
      show (c :: t').get ⟨w - 1, hwlt⟩ :: t'.drop (w - 1) =
        (c :: t').get ⟨w - 1, hwlt⟩ :: (c :: t').drop w
      congr 1
      obtain ⟨w', rfl⟩ : ∃ w', w = w' + 1 := ⟨w - 1, by omega⟩
      simp
    · have hempty : cut_kmer (c :: t') w = [] := by
        unfold cut_kmer
        have : (c :: t').length + 1 - w = 0 := by simp at hw ⊢; omega
        rw [this]
        rfl
      rw [hempty]
      have : (c :: t').drop (w - 1) = [] := by
        apply List.drop_eq_nil_of_le
        simp at hw ⊢
        omega
      rw [this]
      rfl

theorem contig_of_windows (s : List Char) (w : Nat) (h1 : 1 ≤ w)
    (hw : w ≤ s.length) : contigOfPath (cut_kmer s w) = s := by
  rw [windows_cons s w h1 hw]
  show s.take w ++ (cut_kmer (s.drop 1) w).flatMap lastChar = s
  rw [windows_lastChars w h1 (s.drop 1)]
  have hdd : (s.drop 1).drop (w - 1) = s.drop w := by
    rw [List.drop_drop]
    congr 1
    omega
  rw [hdd]
  exact List.take_append_drop w s

theorem windows_pos_width (s : List Char) (w : Nat)
    (h2 : 2 ≤ (cut_kmer s w).length) (hnd : (cut_kmer s w).Nodup) : 1 ≤ w := by
  by_contra hcon
  have hw0 : w = 0 := by omega
  subst hw0
  have hall : ∀ x ∈ cut_kmer s 0, x = [] := by
    intro x hx
    rcases List.mem_map.mp hx with ⟨i, _, rfl⟩
    exact List.take_zero _
  cases hcut : cut_kmer s 0 with
  | nil => rw [hcut] at h2; simp at h2
  | cons a l1 =>
    cases l1 with
    | nil => rw [hcut] at h2; simp at h2
    | cons b r =>
      have ha : a = [] := hall a (by rw [hcut]; exact List.mem_cons_self _ _)
      have hb : b = [] :=
        hall b (by rw [hcut]; exact List.mem_cons_of_mem _ (List.mem_cons_self _ _))
      rw [hcut] at hnd
      have hanb : ¬ a ∈ b :: r := (List.nodup_cons.mp hnd).1
      apply hanb
      rw [ha, hb]
      exact List.mem_cons_self _ _

/-- C8: round-trip through build and extract.  For a single string `s` of
length at least `k` whose k-mer counts yield a single linear chain — the
graph's nodes are exactly the (k-1)-windows of `s` in order, without
duplicates, and its edges exactly their consecutive pairs — `get_contigs`
applied with the graph's entry and exit node sets returns exactly one
contig, equal to `s` and paired with its length. -/
theorem get_contigs_roundtrip_linear_chain (s : List Char) (k : Nat)
    (hk : k ≤ s.length)
    (hchain : isLinearChain (build_graph (counterOf (cut_kmer s k)))
      (cut_kmer s (k - 1))) :
    build_kmer_dict [s] k = some (counterOf (cut_kmer s k)) ∧
    get_contigs (build_graph (counterOf (cut_kmer s k)))
      (get_starting_nodes (build_graph (counterOf (cut_kmer s k))))
      (get_sink_nodes (build_graph (counterOf (cut_kmer s k)))) =
      [(s, s.length)] := by
  refine ⟨rfl, ?_⟩
  rw [chain_contigs _ _ hchain]
  have h1 : 1 ≤ k - 1 := windows_pos_width s (k - 1) hchain.1 hchain.2.1
  have hwk : k - 1 ≤ s.length := by omega
  rw [contig_of_windows s (k - 1) h1 hwk]

theorem get_contigs_roundtrip_linear_chain_witness :
    (2 : Nat) ≤ (['A', 'C', 'G', 'T'] : List Char).length ∧
    (build_kmer_dict [['A', 'C', 'G', 'T']] 2 =
        some (counterOf (cut_kmer ['A', 'C', 'G', 'T'] 2)) ∧
      get_contigs (build_graph (counterOf (cut_kmer ['A', 'C', 'G', 'T'] 2)))
        (get_starting_nodes (build_graph (counterOf (cut_kmer ['A', 'C', 'G', 'T'] 2))))
        (get_sink_nodes (build_graph (counterOf (cut_kmer ['A', 'C', 'G', 'T'] 2)))) =
        [(['A', 'C', 'G', 'T'], 4)]) :=
  ⟨by decide,
    get_contigs_roundtrip_linear_chain ['A', 'C', 'G', 'T'] 2 (by decide)
      (by with_unfolding_all decide)⟩
